import Mathlib

/-!
Verification development for the Y2K grid-gradient generator
(`src/App.tsx`, function `generateGradientSVG` and its helpers).

The generator is embedded shallowly over `ℚ`: JavaScript numbers are
modelled as exact rationals, `Math.floor`/`Math.ceil`/`Math.round` as the
integer floor/ceiling/half-up rounding on `ℚ`, JavaScript's stable
`Array.prototype.sort` as a stable insertion sort, and the string-typed
`Map` keys used by the merge passes as tuples of the joined fields.
Colors are opaque strings; JavaScript truthiness of a color string
(`if (fg && ...)`, `if (bg && ...)`) is the test for non-emptiness.
The trigonometric projection setup (`Math.sin`/`Math.cos` of the angle)
is kept over `ℝ` in the statements that need a concrete angle; the rest
of the pipeline is parameterised by the two direction components
`cosA`, `sinA` exactly as the source computes them once per call.
-/

attribute [local semireducible] Rat.add Rat.mul Rat.inv Rat.sub

namespace Y2K

/-- A color stop, as in the source's `interface Stop`. -/
structure Stop where
  position : ℚ
  color : String
  isLargeEnd : Bool
deriving DecidableEq

/-- Smoothstep easing, source line 74: `t * t * (3 - 2 * t)`. -/
def smoothstep (t : ℚ) : ℚ := t * t * (3 - 2 * t)

/-- A derived segment between two adjacent sorted stops (source lines 94-98). -/
structure Segment where
  startPct : ℚ
  endPct : ℚ
  fgColor : Option String
  bgColor : Option String
  largeAtStart : Option Bool
  s0 : Stop
  s1 : Stop
deriving DecidableEq

/-- The segment-classification branch of the source (lines 103-122):
the `if`/`else if` chain on `s0.isLargeEnd`/`s1.isLargeEnd`. -/
def classifySegment (s0 s1 : Stop) : Segment :=
  if s0.isLargeEnd && !s1.isLargeEnd then
    ⟨s0.position, s1.position, some s0.color, some s1.color, some true, s0, s1⟩
  else if !s0.isLargeEnd && s1.isLargeEnd then
    ⟨s0.position, s1.position, some s1.color, some s0.color, some false, s0, s1⟩
  else if s0.isLargeEnd && s1.isLargeEnd then
    ⟨s0.position, s1.position, some s0.color, none, none, s0, s1⟩
  else
    ⟨s0.position, s1.position, none, some s0.color, none, s0, s1⟩

/-- The segment-building loop (source line 99): one segment per adjacent pair. -/
def buildSegments : List Stop → List Segment
  | s0 :: s1 :: rest => classifySegment s0 s1 :: buildSegments (s1 :: rest)
  | _ => []

/-- Source line 82: `[...stops].sort((a, b) => a.position - b.position)`.
JavaScript's sort is stable, and a stable sort under a total preorder
comparator is extensionally unique, so a stable insertion sort embeds it. -/
def sortStops (stops : List Stop) : List Stop :=
  List.insertionSort (fun a b => a.position ≤ b.position) stops

/-- The per-cell resolver result (source line 125 return type). -/
structure CellInfo where
  fg : Option String
  bg : Option String
  size : ℚ
deriving DecidableEq

/-- The body executed for a matching segment inside `getCellInfo`'s scan
(source lines 139-151). -/
def segBody (globalBg : String) (xPercent : ℚ) (seg : Segment) : CellInfo :=
  let range := seg.endPct - seg.startPct
  let t := if range = 0 then 0 else (xPercent - seg.startPct) / range
  let eased := smoothstep t
  match seg.largeAtStart with
  | some true => ⟨seg.fgColor, seg.bgColor, 1 - eased⟩
  | some false => ⟨seg.fgColor, seg.bgColor, eased⟩
  | none =>
    if seg.fgColor.isSome then ⟨some seg.s0.color, some globalBg, 1⟩
    else ⟨none, seg.bgColor, 0⟩

/-- The segment scan (source lines 137-138): first segment whose
`[startPct, endPct]` contains the position, in list order. -/
def findSeg (segs : List Segment) (xPercent : ℚ) : Option Segment :=
  segs.find? (fun seg => decide (seg.startPct ≤ xPercent) && decide (xPercent ≤ seg.endPct))

/-- The cell resolver `getCellInfo` (source lines 125-155), taking the
already-sorted stop list the source closes over. -/
def getCellInfo (sortedStops : List Stop) (globalBg : String) (xPercent : ℚ) : CellInfo :=
  match sortedStops with
  | [] => ⟨some "#000", some globalBg, 1⟩
  | s0 :: rest =>
    if xPercent ≤ s0.position then
      if s0.isLargeEnd then ⟨some s0.color, some globalBg, 1⟩
      else ⟨none, some s0.color, 0⟩
    else
      let sN := (s0 :: rest).getLast (List.cons_ne_nil s0 rest)
      if sN.position ≤ xPercent then
        if sN.isLargeEnd then ⟨some sN.color, some globalBg, 1⟩
        else ⟨none, some sN.color, 0⟩
      else
        match findSeg (buildSegments (s0 :: rest)) xPercent with
        | some seg => segBody globalBg xPercent seg
        | none => ⟨some "#000", some globalBg, 1⟩

/-- A raw rectangle (source lines 158-161). `opacity` and
`shapeRendering` are optional attributes. -/
structure RawRect where
  x : ℚ
  y : ℚ
  w : ℚ
  h : ℚ
  fill : String
  opacity : Option ℚ
  shapeRendering : Option String
deriving DecidableEq

/-- JavaScript truthiness of a string: only the empty string is falsy. -/
def truthy (s : String) : Bool := !(s == "")

/-- The foreground quantizer: the body of `if (fg && size > 0.001)`
(source lines 187-211), returning the rectangles this cell contributes
to the solid layer and to the fractional-opacity layer. -/
def cellFgRects (squareSize sizeStep cellY cx : ℚ) (fg : Option String) (size : ℚ) :
    List RawRect × List RawRect :=
  match fg with
  | none => ([], [])
  | some c =>
    if truthy c ∧ size > 1/1000 then
      let rawSize := squareSize * size
      if 0 < sizeStep ∧ sizeStep < squareSize then
        let lower := (⌊rawSize / sizeStep⌋ : ℚ) * sizeStep
        let upper := lower + sizeStep
        let frac := (rawSize - lower) / sizeStep
        ((if 0 < lower then
            [⟨cx - lower / 2, cellY + squareSize / 2 - lower / 2, lower, lower, c,
              none, some "geometricPrecision"⟩]
          else []),
         (if frac > 1/1000 ∧ upper ≤ squareSize then
            [⟨cx - upper / 2, cellY + squareSize / 2 - upper / 2, upper, upper, c,
              some frac, some "geometricPrecision"⟩]
          else []))
      else
        ((if 0 < rawSize then
            [⟨cx - rawSize / 2, cellY + squareSize / 2 - rawSize / 2, rawSize, rawSize, c,
              none, some "geometricPrecision"⟩]
          else []), [])
    else ([], [])

/-- Projection of the four canvas corners (source lines 88-91): the
minimum and maximum of `[0, width*cosA, height*sinA, width*cosA + height*sinA]`. -/
def projBounds (width height cosA sinA : ℚ) : ℚ × ℚ :=
  let c1 := width * cosA
  let c2 := height * sinA
  let c3 := width * cosA + height * sinA
  (min (min (min 0 c1) c2) c3, max (max (max 0 c1) c2) c3)

/-- The per-point axis percentage (source lines 178-179):
`projRange === 0 ? 50 : ((projected - minProj) / projRange) * 100`. -/
def xPercentAt (cosA sinA minProj projRange cx cy : ℚ) : ℚ :=
  let projected := cx * cosA + cy * sinA
  if projRange = 0 then 50 else (projected - minProj) / projRange * 100

/-- The three rectangle layers of the emitter (source lines 168-170). -/
structure Layers where
  bgL : List RawRect
  solidL : List RawRect
  alphaL : List RawRect
deriving DecidableEq

/-- The per-cell body of the emitter loop (source lines 172-212). -/
def cellRects (sortedStops : List Stop) (globalBg : String)
    (squareSize sizeStep cosA sinA minProj projRange : ℚ) (row col : ℕ) : Layers :=
  let cellX := (col : ℚ) * squareSize
  let cellY := (row : ℚ) * squareSize
  let cx := cellX + squareSize / 2
  let cy := cellY + squareSize / 2
  let p := xPercentAt cosA sinA minProj projRange cx cy
  let ci := getCellInfo sortedStops globalBg p
  let bgRects :=
    match ci.bg with
    | some b => if truthy b ∧ b ≠ globalBg then
        [⟨cellX, cellY, squareSize, squareSize, b, none, none⟩] else []
    | none => []
  let fgR := cellFgRects squareSize sizeStep cellY cx ci.fg ci.size
  ⟨bgRects, fgR.1, fgR.2⟩

/-- The emission phase of `generateGradientSVG` (source lines 80-213):
grid dimensions by `Math.ceil`, stop sorting, projection bounds, and the
row-major/column-major cell loop collecting the three layers. The two
direction components `cosA = Math.sin(rad)`, `sinA = -Math.cos(rad)`
(lines 85-87) enter as parameters. -/
def buildLayers (width height squareSize : ℚ) (stops : List Stop) (globalBg : String)
    (sizeStep cosA sinA : ℚ) : Layers :=
  let sortedStops := sortStops stops
  let cols := (⌈width / squareSize⌉).toNat
  let rows := (⌈height / squareSize⌉).toNat
  let pb := projBounds width height cosA sinA
  let cells := (List.range rows).flatMap fun row =>
    (List.range cols).map fun col =>
      cellRects sortedStops globalBg squareSize sizeStep cosA sinA pb.1 (pb.2 - pb.1) row col
  ⟨cells.flatMap Layers.bgL, cells.flatMap Layers.solidL, cells.flatMap Layers.alphaL⟩

/-- The visual attributes joined into the source's `visualKey` string
(line 217): fill, opacity and shape-rendering hint, as a tuple. -/
def visualKey (r : RawRect) : String × Option ℚ × Option String :=
  (r.fill, r.opacity, r.shapeRendering)

/-- The grouping key of the vertical merge pass (line 224):
`visualKey + x + w`. -/
def vertKey (r : RawRect) : (String × Option ℚ × Option String) × ℚ × ℚ :=
  (visualKey r, r.x, r.w)

/-- The grouping key of the horizontal merge pass (line 253):
`visualKey + y + h`. -/
def horizKey (r : RawRect) : (String × Option ℚ × Option String) × ℚ × ℚ :=
  (visualKey r, r.y, r.h)

/-- Append a rectangle to its key's group, keeping the first-insertion
order of groups, as a JavaScript `Map` does. -/
def addToGroups {κ : Type} [DecidableEq κ] (k : κ) (r : RawRect) :
    List (κ × List RawRect) → List (κ × List RawRect)
  | [] => [(k, [r])]
  | (k1, rs) :: gs =>
    if k1 = k then (k1, rs ++ [r]) :: gs else (k1, rs) :: addToGroups k r gs

/-- The `Map`-building loop of each merge pass (lines 222-228 / 251-257). -/
def groupByKey {κ : Type} [DecidableEq κ] (key : RawRect → κ) (l : List RawRect) :
    List (κ × List RawRect) :=
  l.foldl (fun gs r => addToGroups (key r) r gs) []

/-- Stable sort of a group by `y` (line 231), as `arr.sort((a, b) => a.y - b.y)`. -/
def sortByY (l : List RawRect) : List RawRect :=
  List.insertionSort (fun a b => a.y ≤ b.y) l

/-- Stable sort of a group by `x` (line 260), as `arr.sort((a, b) => a.x - b.x)`. -/
def sortByX (l : List RawRect) : List RawRect :=
  List.insertionSort (fun a b => a.x ≤ b.x) l

/-- `Math.round(v * 1e6) / 1e6` (lines 235-236, 264-265); `Math.round`
rounds half toward positive infinity. -/
def round6 (v : ℚ) : ℚ := (⌊v * 1000000 + 1/2⌋ : ℚ) / 1000000

/-- The accumulator loop of the vertical pass (lines 232-244): merge the
next rectangle into `cur` when its rounded top edge is within `1e-4` of
`cur`'s rounded bottom edge, else flush `cur`. -/
def vRunMerge : RawRect → List RawRect → List RawRect
  | cur, [] => [cur]
  | cur, r :: rs =>
    if |round6 (cur.y + cur.h) - round6 r.y| < 1/10000 then
      vRunMerge { cur with h := cur.h + r.h } rs
    else
      cur :: vRunMerge r rs

/-- `mergeVertically` (source lines 221-247). -/
def mergeVertically (rects : List RawRect) : List RawRect :=
  (groupByKey vertKey rects).flatMap fun g =>
    match sortByY g.2 with
    | [] => []
    | a :: rest => vRunMerge a rest

/-- The accumulator loop of the horizontal pass (lines 261-273). -/
def hRunMerge : RawRect → List RawRect → List RawRect
  | cur, [] => [cur]
  | cur, r :: rs =>
    if |round6 (cur.x + cur.w) - round6 r.x| < 1/10000 then
      hRunMerge { cur with w := cur.w + r.w } rs
    else
      cur :: hRunMerge r rs

/-- `mergeHorizontally` (source lines 250-276). -/
def mergeHorizontally (rects : List RawRect) : List RawRect :=
  (groupByKey horizKey rects).flatMap fun g =>
    match sortByX g.2 with
    | [] => []
    | a :: rest => hRunMerge a rest

/-- `rawRects` (source line 278): the three layers concatenated unmerged. -/
def rawRects (L : Layers) : List RawRect := L.bgL ++ L.solidL ++ L.alphaL

/-- `mergedRects` (source lines 279-285): each layer merged vertically
then horizontally when merging is enabled, else the unmerged layers. -/
def mergedRects (mergeOn : Bool) (L : Layers) : List RawRect :=
  if mergeOn then
    mergeHorizontally (mergeVertically L.bgL) ++
    mergeHorizontally (mergeVertically L.solidL) ++
    mergeHorizontally (mergeVertically L.alphaL)
  else rawRects L

/-- Membership of a point in a rectangle's half-open extent. -/
def inRect (r : RawRect) (q : ℚ × ℚ) : Prop :=
  r.x ≤ q.1 ∧ q.1 < r.x + r.w ∧ r.y ≤ q.2 ∧ q.2 < r.y + r.h

instance (r : RawRect) (q : ℚ × ℚ) : Decidable (inRect r q) := by
  unfold inRect; infer_instance

/-- Coverage of a point by a rectangle list, restricted to one visual
attribute class (fill, opacity, shape hint). -/
def coversWith (l : List RawRect) (a : String × Option ℚ × Option String) (q : ℚ × ℚ) : Prop :=
  ∃ r ∈ l, visualKey r = a ∧ inRect r q

instance (l : List RawRect) (a : String × Option ℚ × Option String) (q : ℚ × ℚ) :
    Decidable (coversWith l a q) := by
  unfold coversWith; infer_instance

/-- Exactness of one vertical adjacency: the rectangles are disjoint in
order, and the rounded `1e-4` tolerance test succeeds exactly when the
bottom and top edges coincide. -/
def vPairOk (a b : RawRect) : Bool :=
  decide (a.y + a.h ≤ b.y) &&
    (decide (|round6 (a.y + a.h) - round6 b.y| < 1/10000) == decide (a.y + a.h = b.y))

/-- Exactness along a whole vertical run. -/
def vChainOk : List RawRect → Bool
  | a :: b :: t => vPairOk a b && vChainOk (b :: t)
  | _ => true

/-- Exactness of one horizontal adjacency. -/
def hPairOk (a b : RawRect) : Bool :=
  decide (a.x + a.w ≤ b.x) &&
    (decide (|round6 (a.x + a.w) - round6 b.x| < 1/10000) == decide (a.x + a.w = b.x))

/-- Exactness along a whole horizontal run. -/
def hChainOk : List RawRect → Bool
  | a :: b :: t => hPairOk a b && hChainOk (b :: t)
  | _ => true

/-- Hypothesis under which a layer's two-pass merge is exact: every
vertical group is chain-exact, every horizontal group of the vertical
pass's output is chain-exact, and all extents are nonnegative. -/
def mergeExact (l : List RawRect) : Prop :=
  (∀ r ∈ l, 0 ≤ r.w ∧ 0 ≤ r.h) ∧
  (∀ g ∈ groupByKey vertKey l, vChainOk (sortByY g.2) = true) ∧
  (∀ g ∈ groupByKey horizKey (mergeVertically l), hChainOk (sortByX g.2) = true)

instance (l : List RawRect) : Decidable (mergeExact l) := by
  unfold mergeExact; infer_instance

end Y2K

namespace Y2K

/-! Helper lemmas. -/

lemma classifySegment_startPct (s0 s1 : Stop) : (classifySegment s0 s1).startPct = s0.position := by
  unfold classifySegment; split_ifs <;> rfl

lemma classifySegment_endPct (s0 s1 : Stop) : (classifySegment s0 s1).endPct = s1.position := by
  unfold classifySegment; split_ifs <;> rfl

lemma buildSegments_getElem (l : List Stop) (i : ℕ) (a b : Stop)
    (ha : l[i]? = some a) (hb : l[i + 1]? = some b) :
    (buildSegments l)[i]? = some (classifySegment a b) := by
  induction l generalizing i a b with
  | nil => simp at ha
  | cons s0 rest ih =>
    cases rest with
    | nil =>
      rcases i with _ | j
      · simp at hb
      · simp at ha
    | cons s1 rest2 =>
      rcases i with _ | j
      · rw [List.getElem?_cons_zero] at ha
        rw [List.getElem?_cons_succ, List.getElem?_cons_zero] at hb
        obtain rfl : s0 = a := Option.some_injective _ ha
        obtain rfl : s1 = b := Option.some_injective _ hb
        simp [buildSegments]
      · rw [List.getElem?_cons_succ] at ha hb
        simpa [buildSegments] using ih j a b ha hb

/-- C2: for every adjacent pair of stops in a list, the derived segment's
`(fgColor, bgColor, largeAtStart)` follow the classification table exactly:
`(true,false)` gives `(s0.color, s1.color, true)`; `(false,true)` gives
`(s1.color, s0.color, false)`; `(true,true)` gives `(s0.color, null, null)`;
`(false,false)` gives `(null, s0.color, null)` — the both-large case uses
`s0.color`, not `s1.color`. -/
theorem segment_classification_table (l : List Stop) (i : ℕ) (a b : Stop)
    (ha : l[i]? = some a) (hb : l[i + 1]? = some b) :
    (buildSegments l)[i]? = some
      (match a.isLargeEnd, b.isLargeEnd with
       | true, false => ⟨a.position, b.position, some a.color, some b.color, some true, a, b⟩
       | false, true => ⟨a.position, b.position, some b.color, some a.color, some false, a, b⟩
       | true, true => ⟨a.position, b.position, some a.color, none, none, a, b⟩
       | false, false => ⟨a.position, b.position, none, some a.color, none, a, b⟩) := by
  rw [buildSegments_getElem l i a b ha hb]
  rcases a with ⟨pa, ca, la⟩
  rcases b with ⟨pb, cb, lb⟩
  cases la <;> cases lb <;> rfl

/-- Witness for C2 at the concrete pair `{10,"#x",true}`, `{20,"#y",true}`:
the both-large segment carries `s0`'s color. -/
theorem segment_classification_witness :
    (buildSegments [⟨10, "#x", true⟩, ⟨20, "#y", true⟩])[0]? =
      some ⟨10, 20, some "#x", none, none, ⟨10, "#x", true⟩, ⟨20, "#y", true⟩⟩ :=
  segment_classification_table [⟨10, "#x", true⟩, ⟨20, "#y", true⟩] 0
    ⟨10, "#x", true⟩ ⟨20, "#y", true⟩ (by decide) (by decide)

/-- C3: for a non-empty stop list, a position at or before the first stop's
position resolves from that stop alone (full foreground of its color over
the global background at size 1 when `isLargeEnd`, else zero-size
foreground with the stop's color as cell background); past the first
stop, a position at or after the last stop's position resolves
symmetrically from the last stop. -/
theorem boundary_stop_rule (s0 sN : Stop) (rest : List Stop) (g : String) (p : ℚ)
    (hN : (s0 :: rest).getLast? = some sN) :
    (p ≤ s0.position → getCellInfo (s0 :: rest) g p =
      (if s0.isLargeEnd then ⟨some s0.color, some g, 1⟩ else ⟨none, some s0.color, 0⟩)) ∧
    (s0.position < p → sN.position ≤ p → getCellInfo (s0 :: rest) g p =
      (if sN.isLargeEnd then ⟨some sN.color, some g, 1⟩ else ⟨none, some sN.color, 0⟩)) := by
  have hlast : (s0 :: rest).getLast (List.cons_ne_nil s0 rest) = sN := by
    rw [List.getLast?_eq_getLast (s0 :: rest) (List.cons_ne_nil s0 rest)] at hN
    exact Option.some_injective _ hN
  constructor
  · intro hp
    simp only [getCellInfo]
    rw [if_pos hp]
  · intro h0 h1
    simp only [getCellInfo]
    rw [if_neg (not_le.mpr h0), hlast, if_pos h1]

/-- Witness for C3 on stops `{0,"#a",true},{50,"#b",false}`: position 0
uses the first stop's rule, position 60 the last stop's. -/
theorem boundary_stop_rule_witness :
    getCellInfo [⟨0, "#a", true⟩, ⟨50, "#b", false⟩] "#g" 0 = ⟨some "#a", some "#g", 1⟩ ∧
    getCellInfo [⟨0, "#a", true⟩, ⟨50, "#b", false⟩] "#g" 60 = ⟨none, some "#b", 0⟩ := by
  constructor
  · have h := (boundary_stop_rule ⟨0, "#a", true⟩ ⟨50, "#b", false⟩ [⟨50, "#b", false⟩]
      "#g" 0 (by decide)).1 (by norm_num)
    rw [h]
    rfl
  · have h := (boundary_stop_rule ⟨0, "#a", true⟩ ⟨50, "#b", false⟩ [⟨50, "#b", false⟩]
      "#g" 60 (by decide)).2 (by norm_num) (by norm_num)
    rw [h]
    rfl

/-- C6: the degenerate inputs take explicit fallback branches: with zero
stops the resolver returns black foreground over the global background at
size 1 for every position, and a zero projection range fixes the axis
percentage at 50 for every point (as happens for a zero-size canvas,
whose projection bounds coincide). -/
theorem degenerate_fallbacks :
    (∀ (g : String) (p : ℚ), getCellInfo [] g p = ⟨some "#000", some g, 1⟩) ∧
    (∀ cosA sinA minProj cx cy : ℚ, xPercentAt cosA sinA minProj 0 cx cy = 50) ∧
    (∀ cosA sinA : ℚ, (projBounds 0 0 cosA sinA).2 - (projBounds 0 0 cosA sinA).1 = 0) := by
  refine ⟨fun g p => rfl, fun cosA sinA minProj cx cy => by simp [xPercentAt], ?_⟩
  intro cosA sinA
  simp [projBounds]

/-- C7: with stops `{0,"#000",true},{50,"#fff",false}`, `squareSize = 10`,
`width = 50` and the app defaults (`height = 80`, `sizeStep = 1`,
`angle = 90`, background `#00000000`): at angle 90 the direction is
`(cosA, sinA) = (1, 0)`, the projection bounds are `(0, 50)`, the cell
centered at `x = 45` has axis percentage 90, which is at or past the last
stop position 50, so the last-stop rule with `isLargeEnd = false` yields a
zero-size foreground and cell background `#fff`. -/
theorem example_cell_beyond_last_stop :
    Real.sin ((90 : ℝ) * Real.pi / 180) = 1 ∧
    -Real.cos ((90 : ℝ) * Real.pi / 180) = 0 ∧
    projBounds 50 80 1 0 = (0, 50) ∧
    xPercentAt 1 0 0 50 45 5 = 90 ∧
    ((50 : ℚ) ≤ 90) ∧
    getCellInfo (sortStops [⟨0, "#000", true⟩, ⟨50, "#fff", false⟩]) "#00000000" 90 =
      ⟨none, some "#fff", 0⟩ ∧
    cellRects (sortStops [⟨0, "#000", true⟩, ⟨50, "#fff", false⟩]) "#00000000" 10 1 1 0 0 50 0 4 =
      ⟨[⟨40, 0, 10, 10, "#fff", none, none⟩], [], []⟩ := by
  have hrad : (90 : ℝ) * Real.pi / 180 = Real.pi / 2 := by ring
  refine ⟨?_, ?_, by decide, by decide, by decide, by decide, by decide⟩
  · rw [hrad, Real.sin_pi_div_two]
  · rw [hrad, Real.cos_pi_div_two, neg_zero]

end Y2K

namespace Y2K

lemma smoothstep_zero : smoothstep 0 = 0 := by norm_num [smoothstep]

lemma smoothstep_one : smoothstep 1 = 1 := by norm_num [smoothstep]

lemma smoothstep_nonneg {t : ℚ} (h0 : 0 ≤ t) (h1 : t ≤ 1) : 0 ≤ smoothstep t := by
  unfold smoothstep
  nlinarith [mul_nonneg (mul_nonneg h0 h0) (by linarith : (0:ℚ) ≤ 3 - 2 * t)]

lemma smoothstep_le_one {t : ℚ} (h0 : 0 ≤ t) (h1 : t ≤ 1) : smoothstep t ≤ 1 := by
  unfold smoothstep
  nlinarith [mul_nonneg (mul_nonneg (sub_nonneg.2 h1) (sub_nonneg.2 h1))
    (by linarith : (0:ℚ) ≤ 1 + 2 * t)]

lemma smoothstep_mono {a b : ℚ} (ha : 0 ≤ a) (hab : a ≤ b) (hb : b ≤ 1) :
    smoothstep a ≤ smoothstep b := by
  unfold smoothstep
  nlinarith [mul_nonneg (mul_nonneg (sub_nonneg.2 hab) ha) (sub_nonneg.2 (hab.trans hb)),
    mul_nonneg (mul_nonneg (sub_nonneg.2 hab) (ha.trans hab)) (sub_nonneg.2 hb),
    mul_nonneg (sub_nonneg.2 hab) (sq_nonneg (a - b))]

lemma findSeg_bounds {segs : List Segment} {p : ℚ} {seg : Segment}
    (h : findSeg segs p = some seg) : seg.startPct ≤ p ∧ p ≤ seg.endPct := by
  have := List.find?_some h
  simpa using this

lemma getCellInfo_interior (s0 sN : Stop) (rest : List Stop) (g : String) (p : ℚ) (seg : Segment)
    (hN : (s0 :: rest).getLast? = some sN)
    (h0 : s0.position < p) (h1 : p < sN.position)
    (hseg : findSeg (buildSegments (s0 :: rest)) p = some seg) :
    getCellInfo (s0 :: rest) g p = segBody g p seg := by
  have hlast : (s0 :: rest).getLast (List.cons_ne_nil s0 rest) = sN := by
    rw [List.getLast?_eq_getLast (s0 :: rest) (List.cons_ne_nil s0 rest)] at hN
    exact Option.some_injective _ hN
  simp only [getCellInfo]
  rw [if_neg (not_le.mpr h0), hlast, if_neg (not_le.mpr h1), hseg]

/-- C4: for a position strictly inside the stop range matched to a
segment, the resolver computes `t = (p - start)/(end - start)` (`t = 0`
for a zero-width segment), eases it with smoothstep, and returns
`size = 1 - eased` when `largeAtStart` and `size = eased` otherwise;
at a stop boundary the size is exactly 0 or exactly 1. -/
theorem interior_segment_smoothstep (s0 sN : Stop) (rest : List Stop) (g : String) (p : ℚ)
    (seg : Segment) (hN : (s0 :: rest).getLast? = some sN)
    (h0 : s0.position < p) (h1 : p < sN.position)
    (hseg : findSeg (buildSegments (s0 :: rest)) p = some seg) :
    (seg.largeAtStart = some true → getCellInfo (s0 :: rest) g p =
      ⟨seg.fgColor, seg.bgColor, 1 - smoothstep (if seg.endPct - seg.startPct = 0 then 0
        else (p - seg.startPct) / (seg.endPct - seg.startPct))⟩) ∧
    (seg.largeAtStart = some false → getCellInfo (s0 :: rest) g p =
      ⟨seg.fgColor, seg.bgColor, smoothstep (if seg.endPct - seg.startPct = 0 then 0
        else (p - seg.startPct) / (seg.endPct - seg.startPct))⟩) ∧
    ((p = seg.startPct ∨ p = seg.endPct) →
      (getCellInfo (s0 :: rest) g p).size = 0 ∨ (getCellInfo (s0 :: rest) g p).size = 1) := by
  have hred := getCellInfo_interior s0 sN rest g p seg hN h0 h1 hseg
  refine ⟨?_, ?_, ?_⟩
  · intro hla
    rw [hred]
    simp only [segBody, hla]
  · intro hla
    rw [hred]
    simp only [segBody, hla]
  · intro hpe
    have hT : (if seg.endPct - seg.startPct = 0 then (0:ℚ)
        else (p - seg.startPct) / (seg.endPct - seg.startPct)) = 0 ∨
        (if seg.endPct - seg.startPct = 0 then (0:ℚ)
        else (p - seg.startPct) / (seg.endPct - seg.startPct)) = 1 := by
      rcases hpe with hp | hp
      · left
        rcases eq_or_ne (seg.endPct - seg.startPct) 0 with hr | hr
        · rw [if_pos hr]
        · rw [if_neg hr, hp, sub_self, zero_div]
      · rcases eq_or_ne (seg.endPct - seg.startPct) 0 with hr | hr
        · left; rw [if_pos hr]
        · right
          rw [if_neg hr, hp]
          exact div_self hr
    rw [hred]
    rcases hla : seg.largeAtStart with _ | b
    · simp only [segBody, hla]
      by_cases hf : seg.fgColor.isSome
      · right; simp [hf]
      · left; simp [hf]
    · cases b
      · simp only [segBody, hla]
        rcases hT with h | h
        · left; rw [h, smoothstep_zero]
        · right; rw [h, smoothstep_one]
      · simp only [segBody, hla]
        rcases hT with h | h
        · right; rw [h, smoothstep_zero]; norm_num
        · left; rw [h, smoothstep_one]; norm_num

/-- Witness for C4 at stops `{0,"#a",true},{100,"#b",false}` and position 50. -/
theorem interior_segment_smoothstep_witness :
    getCellInfo [⟨0, "#a", true⟩, ⟨100, "#b", false⟩] "#g" 50 =
      ⟨some "#a", some "#b", 1 - smoothstep (if (100 : ℚ) - 0 = 0 then 0
        else (50 - 0) / ((100 : ℚ) - 0))⟩ := by
  have h := (interior_segment_smoothstep ⟨0, "#a", true⟩ ⟨100, "#b", false⟩
    [⟨100, "#b", false⟩] "#g" 50
    ⟨0, 100, some "#a", some "#b", some true, ⟨0, "#a", true⟩, ⟨100, "#b", false⟩⟩
    (by decide) (by norm_num) (by norm_num) (by decide)).1 rfl
  simpa using h

/-- C5: within a segment, the resolved size is non-increasing in the
position (hence in the local parameter `t`) when `largeAtStart` is true,
and non-decreasing when false. -/
theorem size_monotone (g : String) (seg : Segment) (p1 p2 : ℚ)
    (hs : seg.startPct ≤ p1) (h12 : p1 ≤ p2) (he : p2 ≤ seg.endPct) :
    (seg.largeAtStart = some true →
      (segBody g p2 seg).size ≤ (segBody g p1 seg).size) ∧
    (seg.largeAtStart = some false →
      (segBody g p1 seg).size ≤ (segBody g p2 seg).size) := by
  have key : smoothstep (if seg.endPct - seg.startPct = 0 then 0
      else (p1 - seg.startPct) / (seg.endPct - seg.startPct)) ≤
      smoothstep (if seg.endPct - seg.startPct = 0 then 0
      else (p2 - seg.startPct) / (seg.endPct - seg.startPct)) := by
    rcases eq_or_ne (seg.endPct - seg.startPct) 0 with hr | hr
    · rw [if_pos hr, if_pos hr]
    · rw [if_neg hr, if_neg hr]
      have hrpos : 0 < seg.endPct - seg.startPct :=
        lt_of_le_of_ne (by linarith) (Ne.symm hr)
      exact smoothstep_mono
        (div_nonneg (by linarith) hrpos.le)
        ((div_le_div_iff_of_pos_right hrpos).mpr (by linarith))
        ((div_le_one hrpos).mpr (by linarith))
  constructor
  · intro hla
    simp only [segBody, hla]
    linarith
  · intro hla
    simp only [segBody, hla]
    linarith

/-- Witness for C5 on the segment from `{0,"#a",true}` to `{100,"#b",false}`
sampled at positions 30 and 60. -/
theorem size_monotone_witness :
    (segBody "#g" 60 ⟨0, 100, some "#a", some "#b", some true,
        ⟨0, "#a", true⟩, ⟨100, "#b", false⟩⟩).size ≤
    (segBody "#g" 30 ⟨0, 100, some "#a", some "#b", some true,
        ⟨0, "#a", true⟩, ⟨100, "#b", false⟩⟩).size :=
  (size_monotone "#g" ⟨0, 100, some "#a", some "#b", some true,
      ⟨0, "#a", true⟩, ⟨100, "#b", false⟩⟩ 30 60
    (by norm_num) (by norm_num) (by norm_num)).1 rfl

lemma findSeg_interior (s0 : Stop) (rest : List Stop) (sN : Stop)
    (hN : (s0 :: rest).getLast? = some sN) (p : ℚ)
    (h0 : s0.position < p) (h1 : p < sN.position) :
    (findSeg (buildSegments (s0 :: rest)) p).isSome = true := by
  induction rest generalizing s0 with
  | nil =>
    rw [List.getLast?_singleton] at hN
    obtain rfl : s0 = sN := Option.some_injective _ hN
    exact absurd (h0.trans h1) (lt_irrefl _)
  | cons s1 rest2 ih =>
    have hbuild : buildSegments (s0 :: s1 :: rest2) =
        classifySegment s0 s1 :: buildSegments (s1 :: rest2) := rfl
    by_cases hp : p ≤ s1.position
    · unfold findSeg
      rw [hbuild, List.find?_cons]
      have : (decide ((classifySegment s0 s1).startPct ≤ p) &&
          decide (p ≤ (classifySegment s0 s1).endPct)) = true := by
        rw [classifySegment_startPct, classifySegment_endPct]
        simp [h0.le, hp]
      rw [this]
      rfl
    · push_neg at hp
      have hN2 : (s1 :: rest2).getLast? = some sN := by
        rw [← hN, List.getLast?_cons_cons]
      have htail := ih s1 hN2 hp
      unfold findSeg
      rw [hbuild, List.find?_cons]
      cases hhead : (decide ((classifySegment s0 s1).startPct ≤ p) &&
          decide (p ≤ (classifySegment s0 s1).endPct)) with
      | true => rfl
      | false => exact htail

/-- C9: for any stop list, a position strictly between the first and the
last sorted stop positions is always matched by the segment scan, so the
resolver returns through the segment body and the final black/full-size
fallback is unreachable for interior positions. -/
theorem fallback_unreachable (l : List Stop) (g : String) (p : ℚ) (s0 sN : Stop)
    (rest : List Stop) (hs : sortStops l = s0 :: rest)
    (hN : (s0 :: rest).getLast? = some sN)
    (h0 : s0.position < p) (h1 : p < sN.position) :
    ∃ seg, findSeg (buildSegments (sortStops l)) p = some seg ∧
      getCellInfo (sortStops l) g p = segBody g p seg := by
  rw [hs]
  obtain ⟨seg, hseg⟩ := Option.isSome_iff_exists.mp (findSeg_interior s0 rest sN hN p h0 h1)
  exact ⟨seg, hseg, getCellInfo_interior s0 sN rest g p seg hN h0 h1 hseg⟩

/-- Witness for C9 on the unsorted input `{100,"#b",false},{0,"#a",true}`
at position 50. -/
theorem fallback_unreachable_witness :
    ∃ seg, findSeg (buildSegments (sortStops [⟨100, "#b", false⟩, ⟨0, "#a", true⟩])) 50 =
        some seg ∧
      getCellInfo (sortStops [⟨100, "#b", false⟩, ⟨0, "#a", true⟩]) "#g" 50 =
        segBody "#g" 50 seg :=
  fallback_unreachable [⟨100, "#b", false⟩, ⟨0, "#a", true⟩] "#g" 50
    ⟨0, "#a", true⟩ ⟨100, "#b", false⟩ [⟨100, "#b", false⟩]
    (by decide) (by decide) (by norm_num) (by norm_num)

end Y2K

namespace Y2K

/-- C8 counterexample: the source guard is `if (fg && size > 0.001)`, and
JavaScript string truthiness makes the empty-string color falsy, so a cell
whose foreground is the non-null color `""` with `size = 1/2` emits no
rectangle at all, although the claim's unstepped path (here
`sizeStep = squareSize = 8`) requires one square of side `rawSize = 4`. -/
theorem quantizer_emission_counterexample :
    (some "" : Option String) ≠ none ∧ ((1:ℚ)/2 > 1/1000) ∧ (0 < (8:ℚ) * (1/2)) ∧
    cellFgRects 8 8 0 4 (some "") (1/2) ≠
      ([⟨4 - 8 * (1/2) / 2, 0 + 8 / 2 - 8 * (1/2) / 2, 8 * (1/2), 8 * (1/2), "", none,
         some "geometricPrecision"⟩], []) ∧
    cellFgRects 8 8 0 4 (some "") (1/2) = ([], []) := by
  refine ⟨by decide, by decide, by decide, by decide, by decide⟩

/-- C8 (amended: the foreground color must be non-null and non-empty,
since the source tests `fg` for JavaScript truthiness): for a truthy
foreground color and `size > 0.001`, with `0 < sizeStep < squareSize` the
quantizer emits exactly a fully-opaque square of side
`lower = floor(rawSize/sizeStep)*sizeStep` when `lower > 0`, plus a square
of side `upper = lower + sizeStep` at opacity `frac = (rawSize-lower)/sizeStep`
when `frac > 0.001` and `upper ≤ squareSize`; otherwise (`sizeStep` zero,
negative, or at least `squareSize`) exactly one square of side `rawSize`
when `rawSize > 0`; a null foreground or `size ≤ 0.001` emits nothing. -/
theorem quantizer_emission (squareSize sizeStep cellY cx size : ℚ) (c : String) (hc : c ≠ "") :
    (size > 1/1000 →
      ((0 < sizeStep ∧ sizeStep < squareSize) →
        cellFgRects squareSize sizeStep cellY cx (some c) size =
          ((if 0 < (⌊squareSize * size / sizeStep⌋ : ℚ) * sizeStep then
              [⟨cx - (⌊squareSize * size / sizeStep⌋ : ℚ) * sizeStep / 2,
                cellY + squareSize / 2 - (⌊squareSize * size / sizeStep⌋ : ℚ) * sizeStep / 2,
                (⌊squareSize * size / sizeStep⌋ : ℚ) * sizeStep,
                (⌊squareSize * size / sizeStep⌋ : ℚ) * sizeStep, c,
                none, some "geometricPrecision"⟩]
            else []),
           (if (squareSize * size - (⌊squareSize * size / sizeStep⌋ : ℚ) * sizeStep) / sizeStep
                  > 1/1000 ∧
                (⌊squareSize * size / sizeStep⌋ : ℚ) * sizeStep + sizeStep ≤ squareSize then
              [⟨cx - ((⌊squareSize * size / sizeStep⌋ : ℚ) * sizeStep + sizeStep) / 2,
                cellY + squareSize / 2 -
                  ((⌊squareSize * size / sizeStep⌋ : ℚ) * sizeStep + sizeStep) / 2,
                (⌊squareSize * size / sizeStep⌋ : ℚ) * sizeStep + sizeStep,
                (⌊squareSize * size / sizeStep⌋ : ℚ) * sizeStep + sizeStep, c,
                some ((squareSize * size - (⌊squareSize * size / sizeStep⌋ : ℚ) * sizeStep)
                  / sizeStep),
                some "geometricPrecision"⟩]
            else []))) ∧
      (¬(0 < sizeStep ∧ sizeStep < squareSize) →
        cellFgRects squareSize sizeStep cellY cx (some c) size =
          ((if 0 < squareSize * size then
              [⟨cx - squareSize * size / 2, cellY + squareSize / 2 - squareSize * size / 2,
                squareSize * size, squareSize * size, c, none, some "geometricPrecision"⟩]
            else []), []))) ∧
    (size ≤ 1/1000 → cellFgRects squareSize sizeStep cellY cx (some c) size = ([], [])) ∧
    cellFgRects squareSize sizeStep cellY cx none size = ([], []) := by
  have htr : truthy c = true := by simpa [truthy] using hc
  refine ⟨fun hsize => ⟨fun hstep => ?_, fun hstep => ?_⟩, fun hsize => ?_, rfl⟩
  · simp only [cellFgRects]
    rw [if_pos ⟨by simp [htr], hsize⟩, if_pos hstep]
  · simp only [cellFgRects]
    rw [if_pos ⟨by simp [htr], hsize⟩, if_neg hstep]
  · simp only [cellFgRects]
    rw [if_neg]
    rintro ⟨-, hgt⟩
    exact absurd hsize (not_le.mpr hgt)

/-- Witness for C8 with `squareSize = 8`, `sizeStep = 2`, color `#a`,
`size = 3/5`: `rawSize = 24/5`, `lower = 4`, `upper = 6`, `frac = 2/5`. -/
theorem quantizer_emission_witness :
    cellFgRects 8 2 0 4 (some "#a") (3/5) =
      ([⟨2, 2, 4, 4, "#a", none, some "geometricPrecision"⟩],
       [⟨1, 1, 6, 6, "#a", some (2/5), some "geometricPrecision"⟩]) := by
  have h1 := (quantizer_emission 8 2 0 4 (3/5) "#a" (by decide)).1 (by norm_num)
  have h := h1.1 (by norm_num)
  rw [h]
  decide

lemma segBody_size_bounds (g : String) (p : ℚ) (seg : Segment)
    (hs : seg.startPct ≤ p) (he : p ≤ seg.endPct) :
    0 ≤ (segBody g p seg).size ∧ (segBody g p seg).size ≤ 1 := by
  have hT : 0 ≤ (if seg.endPct - seg.startPct = 0 then (0:ℚ)
        else (p - seg.startPct) / (seg.endPct - seg.startPct)) ∧
      (if seg.endPct - seg.startPct = 0 then (0:ℚ)
        else (p - seg.startPct) / (seg.endPct - seg.startPct)) ≤ 1 := by
    rcases eq_or_ne (seg.endPct - seg.startPct) 0 with hr | hr
    · rw [if_pos hr]; norm_num
    · rw [if_neg hr]
      have hrpos : 0 < seg.endPct - seg.startPct := lt_of_le_of_ne (by linarith) (Ne.symm hr)
      exact ⟨div_nonneg (by linarith) hrpos.le, (div_le_one hrpos).mpr (by linarith)⟩
  have hss := smoothstep_nonneg hT.1 hT.2
  have hsl := smoothstep_le_one hT.1 hT.2
  rcases hla : seg.largeAtStart with _ | b
  · simp only [segBody, hla]
    by_cases hf : seg.fgColor.isSome
    · simp [hf]
    · simp [hf]
  · cases b
    · simp only [segBody, hla]
      exact ⟨hss, hsl⟩
    · simp only [segBody, hla]
      constructor <;> linarith

lemma getCellInfo_size_bounds (ss : List Stop) (g : String) (p : ℚ) :
    0 ≤ (getCellInfo ss g p).size ∧ (getCellInfo ss g p).size ≤ 1 := by
  cases ss with
  | nil => simp [getCellInfo]
  | cons s0 rest =>
    simp only [getCellInfo]
    split_ifs
    · norm_num
    · norm_num
    · norm_num
    · norm_num
    · rcases hfs : findSeg (buildSegments (s0 :: rest)) p with _ | seg
      · norm_num
      · obtain ⟨hs, he⟩ := findSeg_bounds hfs
        exact segBody_size_bounds g p seg hs he

lemma cellFgRects_shape (squareSize sizeStep cellY cx : ℚ) (fg : Option String) (size : ℚ)
    (hsq : 0 < squareSize) (h0 : 0 ≤ size) (h1 : size ≤ 1) (r : RawRect)
    (hr : r ∈ (cellFgRects squareSize sizeStep cellY cx fg size).1 ++
          (cellFgRects squareSize sizeStep cellY cx fg size).2) :
    ∃ side, 0 < side ∧ side ≤ squareSize ∧
      r.x = cx - side / 2 ∧ r.y = cellY + squareSize / 2 - side / 2 ∧
      r.w = side ∧ r.h = side := by
  have hraw0 : 0 ≤ squareSize * size := mul_nonneg hsq.le h0
  have hraw1 : squareSize * size ≤ squareSize := by nlinarith
  rcases fg with _ | c
  · simp [cellFgRects] at hr
  · simp only [cellFgRects] at hr
    by_cases hmain : truthy c ∧ size > 1/1000
    · rw [if_pos hmain] at hr
      by_cases hstep : 0 < sizeStep ∧ sizeStep < squareSize
      · rw [if_pos hstep] at hr
        have hfl : (⌊squareSize * size / sizeStep⌋ : ℚ) * sizeStep ≤ squareSize * size := by
          have h := Int.floor_le (squareSize * size / sizeStep)
          calc (⌊squareSize * size / sizeStep⌋ : ℚ) * sizeStep
              ≤ squareSize * size / sizeStep * sizeStep :=
                mul_le_mul_of_nonneg_right h hstep.1.le
            _ = squareSize * size := div_mul_cancel₀ _ (ne_of_gt hstep.1)
        have hfl0 : 0 ≤ (⌊squareSize * size / sizeStep⌋ : ℚ) * sizeStep := by
          have hz : (0:ℤ) ≤ ⌊squareSize * size / sizeStep⌋ :=
            Int.floor_nonneg.mpr (div_nonneg hraw0 hstep.1.le)
          have h2 : (0:ℚ) ≤ (⌊squareSize * size / sizeStep⌋ : ℚ) := by exact_mod_cast hz
          exact mul_nonneg h2 hstep.1.le
        simp at hr
        rcases hr with ⟨hlow, rfl⟩ | ⟨hfrac, rfl⟩
        · exact ⟨(⌊squareSize * size / sizeStep⌋ : ℚ) * sizeStep, hlow,
            le_trans hfl hraw1, rfl, rfl, rfl, rfl⟩
        · exact ⟨(⌊squareSize * size / sizeStep⌋ : ℚ) * sizeStep + sizeStep,
            by linarith [hstep.1], hfrac.2, rfl, rfl, rfl, rfl⟩
      · rw [if_neg hstep] at hr
        simp at hr
        rcases hr with ⟨hrawpos, rfl⟩
        exact ⟨squareSize * size, hrawpos, hraw1, rfl, rfl, rfl, rfl⟩
    · rw [if_neg hmain] at hr
      simp at hr

/-- C10: the resolved size is always in `[0,1]`, and every rectangle the
quantizer emits into the solid or fractional layer for a cell lies inside
that cell's bounds and is centered on the cell's geometric center. -/
theorem fg_rect_within_cell :
    (∀ (ss : List Stop) (g : String) (p : ℚ),
      0 ≤ (getCellInfo ss g p).size ∧ (getCellInfo ss g p).size ≤ 1) ∧
    (∀ (ss : List Stop) (g : String)
      (squareSize sizeStep cosA sinA minProj projRange : ℚ) (row col : ℕ) (r : RawRect),
      0 < squareSize →
      (r ∈ (cellRects ss g squareSize sizeStep cosA sinA minProj projRange row col).solidL ∨
       r ∈ (cellRects ss g squareSize sizeStep cosA sinA minProj projRange row col).alphaL) →
      ((col : ℚ) * squareSize ≤ r.x ∧
       r.x + r.w ≤ (col : ℚ) * squareSize + squareSize ∧
       (row : ℚ) * squareSize ≤ r.y ∧
       r.y + r.h ≤ (row : ℚ) * squareSize + squareSize ∧
       r.x + r.w / 2 = (col : ℚ) * squareSize + squareSize / 2 ∧
       r.y + r.h / 2 = (row : ℚ) * squareSize + squareSize / 2)) := by
  refine ⟨getCellInfo_size_bounds, ?_⟩
  intro ss g squareSize sizeStep cosA sinA minProj projRange row col r hsq hmem
  have hmem2 : r ∈ (cellFgRects squareSize sizeStep ((row : ℚ) * squareSize)
      ((col : ℚ) * squareSize + squareSize / 2) (getCellInfo ss g
        (xPercentAt cosA sinA minProj projRange ((col : ℚ) * squareSize + squareSize / 2)
          ((row : ℚ) * squareSize + squareSize / 2))).fg
      (getCellInfo ss g (xPercentAt cosA sinA minProj projRange
        ((col : ℚ) * squareSize + squareSize / 2)
        ((row : ℚ) * squareSize + squareSize / 2))).size).1 ++
      (cellFgRects squareSize sizeStep ((row : ℚ) * squareSize)
      ((col : ℚ) * squareSize + squareSize / 2) (getCellInfo ss g
        (xPercentAt cosA sinA minProj projRange ((col : ℚ) * squareSize + squareSize / 2)
          ((row : ℚ) * squareSize + squareSize / 2))).fg
      (getCellInfo ss g (xPercentAt cosA sinA minProj projRange
        ((col : ℚ) * squareSize + squareSize / 2)
        ((row : ℚ) * squareSize + squareSize / 2))).size).2 := by
    rcases hmem with hmem | hmem
    · exact List.mem_append.mpr (Or.inl (by simpa [cellRects] using hmem))
    · exact List.mem_append.mpr (Or.inr (by simpa [cellRects] using hmem))
  obtain ⟨hb0, hb1⟩ := getCellInfo_size_bounds ss g (xPercentAt cosA sinA minProj projRange
    ((col : ℚ) * squareSize + squareSize / 2) ((row : ℚ) * squareSize + squareSize / 2))
  obtain ⟨side, hside0, hside1, hx, hy, hw, hh⟩ :=
    cellFgRects_shape squareSize sizeStep ((row : ℚ) * squareSize)
      ((col : ℚ) * squareSize + squareSize / 2) _ _ hsq hb0 hb1 r hmem2
  rw [hx, hy, hw, hh]
  refine ⟨by linarith, by linarith, by linarith, by linarith, by ring, by ring⟩

/-- Witness for C10: the single cell of a one-stop large gradient emits
the full-cell solid square, which lies within the cell and is centered. -/
theorem fg_rect_within_cell_witness :
    (0 ≤ (getCellInfo [] "#fff" 3).size ∧ (getCellInfo [] "#fff" 3).size ≤ 1) ∧
    (((0 : ℕ) : ℚ) * 8 ≤ (⟨0, 0, 8, 8, "#a", none, some "geometricPrecision"⟩ : RawRect).x ∧
     (⟨0, 0, 8, 8, "#a", none, some "geometricPrecision"⟩ : RawRect).x +
       (⟨0, 0, 8, 8, "#a", none, some "geometricPrecision"⟩ : RawRect).w ≤
       ((0 : ℕ) : ℚ) * 8 + 8 ∧
     ((0 : ℕ) : ℚ) * 8 ≤ (⟨0, 0, 8, 8, "#a", none, some "geometricPrecision"⟩ : RawRect).y ∧
     (⟨0, 0, 8, 8, "#a", none, some "geometricPrecision"⟩ : RawRect).y +
       (⟨0, 0, 8, 8, "#a", none, some "geometricPrecision"⟩ : RawRect).h ≤
       ((0 : ℕ) : ℚ) * 8 + 8 ∧
     (⟨0, 0, 8, 8, "#a", none, some "geometricPrecision"⟩ : RawRect).x +
       (⟨0, 0, 8, 8, "#a", none, some "geometricPrecision"⟩ : RawRect).w / 2 =
       ((0 : ℕ) : ℚ) * 8 + 8 / 2 ∧
     (⟨0, 0, 8, 8, "#a", none, some "geometricPrecision"⟩ : RawRect).y +
       (⟨0, 0, 8, 8, "#a", none, some "geometricPrecision"⟩ : RawRect).h / 2 =
       ((0 : ℕ) : ℚ) * 8 + 8 / 2) :=
  ⟨fg_rect_within_cell.1 [] "#fff" 3,
   fg_rect_within_cell.2 [⟨0, "#a", true⟩] "#g" 8 8 1 0 0 8 0 0
     ⟨0, 0, 8, 8, "#a", none, some "geometricPrecision"⟩ (by norm_num)
     (Or.inl (by decide))⟩

end Y2K

namespace Y2K

lemma addToGroups_mem {κ : Type} [DecidableEq κ] (gs : List (κ × List RawRect))
    (k : κ) (r x : RawRect) :
    (∃ g ∈ addToGroups k r gs, x ∈ g.2) ↔ (x = r ∨ ∃ g ∈ gs, x ∈ g.2) := by
  induction gs with
  | nil => simp [addToGroups]
  | cons g0 gs ih =>
    rcases g0 with ⟨k1, rs⟩
    by_cases hk : k1 = k
    · simp only [addToGroups, if_pos hk]
      simp only [List.mem_cons, List.mem_append, List.mem_singleton]
      constructor
      · rintro ⟨g, hg | hg, hxg⟩
        · subst hg
          rcases List.mem_append.mp hxg with h | h
          · exact Or.inr ⟨(k1, rs), by simp, h⟩
          · exact Or.inl (List.mem_singleton.mp h)
        · exact Or.inr ⟨g, by simp [hg], hxg⟩
      · rintro (h | ⟨g, hg, hxg⟩)
        · exact ⟨(k1, rs ++ [r]), by simp, by simp [h]⟩
        · rcases hg with hg | hg
          · subst hg
            exact ⟨(k1, rs ++ [r]), by simp, by simp [hxg]⟩
          · exact ⟨g, by simp [hg], hxg⟩
    · simp only [addToGroups, if_neg hk]
      simp only [List.mem_cons]
      constructor
      · rintro ⟨g, hg | hg, hxg⟩
        · exact Or.inr ⟨g, by simp [hg], hxg⟩
        · rcases ih.mp ⟨g, hg, hxg⟩ with h | ⟨g', hg', hx'⟩
          · exact Or.inl h
          · exact Or.inr ⟨g', by simp [hg'], hx'⟩
      · rintro (h | ⟨g, hg, hxg⟩)
        · obtain ⟨g', hg', hx'⟩ := ih.mpr (Or.inl h)
          exact ⟨g', by simp [hg'], hx'⟩
        · rcases hg with hg | hg
          · subst hg
            exact ⟨(k1, rs), by simp, hxg⟩
          · obtain ⟨g', hg', hx'⟩ := ih.mpr (Or.inr ⟨g, hg, hxg⟩)
            exact ⟨g', by simp [hg'], hx'⟩

lemma addToGroups_key {κ : Type} [DecidableEq κ] (key : RawRect → κ)
    (gs : List (κ × List RawRect)) (k : κ) (r : RawRect) (hr : key r = k)
    (hgs : ∀ g ∈ gs, ∀ x ∈ g.2, key x = g.1) :
    ∀ g ∈ addToGroups k r gs, ∀ x ∈ g.2, key x = g.1 := by
  induction gs with
  | nil =>
    intro g hg x hx
    simp only [addToGroups, List.mem_singleton] at hg
    subst hg
    simp only [List.mem_singleton] at hx
    subst hx
    exact hr
  | cons g0 gs ih =>
    rcases g0 with ⟨k1, rs⟩
    intro g hg x hx
    by_cases hk : k1 = k
    · simp only [addToGroups, if_pos hk] at hg
      rcases List.mem_cons.mp hg with hg | hg
      · subst hg
        simp only [List.mem_append, List.mem_singleton] at hx
        rcases hx with hx | hx
        · exact hgs (k1, rs) (by simp) x hx
        · subst hx
          rw [hr, hk]
      · exact hgs g (by simp [hg]) x hx
    · simp only [addToGroups, if_neg hk] at hg
      rcases List.mem_cons.mp hg with hg | hg
      · subst hg
        exact hgs (k1, rs) (by simp) x hx
      · exact ih (fun g' hg' => hgs g' (by simp [hg'])) g hg x hx

lemma groupBy_loop_mem {κ : Type} [DecidableEq κ] (key : RawRect → κ)
    (l : List RawRect) (acc : List (κ × List RawRect)) (x : RawRect) :
    (∃ g ∈ l.foldl (fun gs r => addToGroups (key r) r gs) acc, x ∈ g.2) ↔
      ((∃ g ∈ acc, x ∈ g.2) ∨ x ∈ l) := by
  induction l generalizing acc with
  | nil => simp
  | cons a l ih =>
    simp only [List.foldl_cons]
    rw [ih, addToGroups_mem]
    simp only [List.mem_cons]
    constructor
    · rintro ((h | h) | h)
      · exact Or.inr (Or.inl h)
      · exact Or.inl h
      · exact Or.inr (Or.inr h)
    · rintro (h | (h | h))
      · exact Or.inl (Or.inr h)
      · exact Or.inl (Or.inl h)
      · exact Or.inr h

lemma groupByKey_mem {κ : Type} [DecidableEq κ] (key : RawRect → κ)
    (l : List RawRect) (x : RawRect) :
    (∃ g ∈ groupByKey key l, x ∈ g.2) ↔ x ∈ l := by
  unfold groupByKey
  rw [groupBy_loop_mem]
  simp

lemma groupBy_loop_key {κ : Type} [DecidableEq κ] (key : RawRect → κ)
    (l : List RawRect) (acc : List (κ × List RawRect))
    (hacc : ∀ g ∈ acc, ∀ x ∈ g.2, key x = g.1) :
    ∀ g ∈ l.foldl (fun gs r => addToGroups (key r) r gs) acc, ∀ x ∈ g.2, key x = g.1 := by
  induction l generalizing acc with
  | nil => exact hacc
  | cons a l ih =>
    simp only [List.foldl_cons]
    exact ih _ (addToGroups_key key acc (key a) a rfl hacc)

lemma groupByKey_key {κ : Type} [DecidableEq κ] (key : RawRect → κ) (l : List RawRect) :
    ∀ g ∈ groupByKey key l, ∀ x ∈ g.2, key x = g.1 :=
  groupBy_loop_key key l [] (by simp)

lemma coversWith_cons (r : RawRect) (l : List RawRect)
    (a : String × Option ℚ × Option String) (q : ℚ × ℚ) :
    coversWith (r :: l) a q ↔ ((visualKey r = a ∧ inRect r q) ∨ coversWith l a q) := by
  unfold coversWith
  simp only [List.mem_cons]
  constructor
  · rintro ⟨x, hx | hx, hattr, hin⟩
    · subst hx; exact Or.inl ⟨hattr, hin⟩
    · exact Or.inr ⟨x, hx, hattr, hin⟩
  · rintro (⟨hattr, hin⟩ | ⟨x, hx, hattr, hin⟩)
    · exact ⟨r, Or.inl rfl, hattr, hin⟩
    · exact ⟨x, Or.inr hx, hattr, hin⟩

lemma coversWith_of_mem_iff {l1 l2 : List RawRect}
    (h : ∀ x, x ∈ l1 ↔ x ∈ l2) (a : String × Option ℚ × Option String) (q : ℚ × ℚ) :
    coversWith l1 a q ↔ coversWith l2 a q := by
  unfold coversWith
  constructor
  · rintro ⟨r, hr, hrest⟩; exact ⟨r, (h r).mp hr, hrest⟩
  · rintro ⟨r, hr, hrest⟩; exact ⟨r, (h r).mpr hr, hrest⟩

lemma vPairOk_iff {a b : RawRect} : vPairOk a b = true ↔
    (a.y + a.h ≤ b.y ∧ (|round6 (a.y + a.h) - round6 b.y| < 1/10000 ↔ a.y + a.h = b.y)) := by
  simp [vPairOk, decide_eq_decide]

lemma vPairOk_bot_congr {a a' b : RawRect} (h : a.y + a.h = a'.y + a'.h) :
    vPairOk a b = vPairOk a' b := by
  unfold vPairOk
  rw [h]

lemma inRect_merge_split (cur r : RawRect) (hx : r.x = cur.x) (hw : r.w = cur.w)
    (hadj : r.y = cur.y + cur.h) (hh1 : 0 ≤ cur.h) (hh2 : 0 ≤ r.h) (q : ℚ × ℚ) :
    inRect { cur with h := cur.h + r.h } q ↔ (inRect cur q ∨ inRect r q) := by
  unfold inRect
  simp only
  constructor
  · rintro ⟨h1, h2, h3, h4⟩
    by_cases hy : q.2 < cur.y + cur.h
    · exact Or.inl ⟨h1, h2, h3, hy⟩
    · push_neg at hy
      exact Or.inr ⟨by linarith, by linarith, by linarith, by linarith⟩
  · rintro (⟨h1, h2, h3, h4⟩ | ⟨h1, h2, h3, h4⟩)
    · exact ⟨h1, h2, h3, by linarith⟩
    · exact ⟨by linarith, by linarith, by linarith, by linarith⟩

lemma vRunMerge_key (k : (String × Option ℚ × Option String) × ℚ × ℚ) :
    ∀ (l : List RawRect) (cur : RawRect), (∀ x ∈ cur :: l, vertKey x = k) →
    ∀ x ∈ vRunMerge cur l, vertKey x = k := by
  intro l
  induction l with
  | nil =>
    intro cur hk x hx
    simp only [vRunMerge, List.mem_singleton] at hx
    subst hx
    exact hk x (by simp)
  | cons r rs ih =>
    intro cur hk x hx
    simp only [vRunMerge] at hx
    split_ifs at hx with hclose
    · refine ih { cur with h := cur.h + r.h } ?_ x hx
      intro y hy
      rcases List.mem_cons.mp hy with hy | hy
      · subst hy
        exact hk cur (by simp)
      · exact hk y (by simp [hy])
    · rcases List.mem_cons.mp hx with hx | hx
      · subst hx
        exact hk x (by simp)
      · refine ih r ?_ x hx
        intro y hy
        rcases List.mem_cons.mp hy with hy | hy
        · subst hy
          exact hk y (by simp)
        · exact hk y (by simp [hy])

lemma vRunMerge_covers : ∀ (l : List RawRect) (cur : RawRect),
    (∀ x ∈ cur :: l, vertKey x = vertKey cur) → (∀ x ∈ cur :: l, 0 ≤ x.h) →
    vChainOk (cur :: l) = true →
    ∀ (a : String × Option ℚ × Option String) (q : ℚ × ℚ),
      (coversWith (vRunMerge cur l) a q ↔ coversWith (cur :: l) a q) := by
  intro l
  induction l with
  | nil =>
    intro cur _ _ _ a q
    exact Iff.rfl
  | cons r rs ih =>
    intro cur hkey hh hchain a q
    have hchain2 : (vPairOk cur r && vChainOk (r :: rs)) = true := hchain
    rw [Bool.and_eq_true] at hchain2
    obtain ⟨hdisj, hiff⟩ := vPairOk_iff.mp hchain2.1
    have hkr : vertKey r = vertKey cur := hkey r (by simp)
    have hvis : visualKey r = visualKey cur := congrArg Prod.fst hkr
    have hxeq : r.x = cur.x := congrArg (fun p => p.2.1) hkr
    have hweq : r.w = cur.w := congrArg (fun p => p.2.2) hkr
    simp only [vRunMerge]
    split_ifs with hclose
    · have hadj : cur.y + cur.h = r.y := hiff.mp hclose
      have hbot : ({ cur with h := cur.h + r.h } : RawRect).y +
          ({ cur with h := cur.h + r.h } : RawRect).h = r.y + r.h := by
        simp only
        linarith
      have hkey2 : ∀ x ∈ ({ cur with h := cur.h + r.h } : RawRect) :: rs,
          vertKey x = vertKey ({ cur with h := cur.h + r.h } : RawRect) := by
        intro x hx
        have hck : vertKey ({ cur with h := cur.h + r.h } : RawRect) = vertKey cur := rfl
        rcases List.mem_cons.mp hx with hx | hx
        · subst hx; rfl
        · rw [hck]; exact hkey x (by simp [hx])
      have hh2 : ∀ x ∈ ({ cur with h := cur.h + r.h } : RawRect) :: rs, 0 ≤ x.h := by
        intro x hx
        rcases List.mem_cons.mp hx with hx | hx
        · subst hx
          have h1 := hh cur (by simp)
          have h2 := hh r (by simp)
          simp only
          linarith
        · exact hh x (by simp [hx])
      have hchain3 : vChainOk (({ cur with h := cur.h + r.h } : RawRect) :: rs) = true := by
        cases rs with
        | nil => rfl
        | cons r2 rs2 =>
          have e1 : vChainOk (({ cur with h := cur.h + r.h } : RawRect) :: r2 :: rs2) =
              (vPairOk { cur with h := cur.h + r.h } r2 && vChainOk (r2 :: rs2)) := rfl
          have e2 : vChainOk (r :: r2 :: rs2) =
              (vPairOk r r2 && vChainOk (r2 :: rs2)) := rfl
          rw [e1, vPairOk_bot_congr hbot, ← e2]
          exact hchain2.2
      rw [ih { cur with h := cur.h + r.h } hkey2 hh2 hchain3 a q]
      rw [coversWith_cons, coversWith_cons, coversWith_cons]
      have hsplit := inRect_merge_split cur r hxeq hweq hadj.symm
        (hh cur (by simp)) (hh r (by simp)) q
      have hvis2 : visualKey ({ cur with h := cur.h + r.h } : RawRect) = visualKey cur := rfl
      rw [hvis2, hsplit, hvis]
      tauto
    · have hkey2 : ∀ x ∈ r :: rs, vertKey x = vertKey r := by
        intro x hx
        rw [hkr]
        exact hkey x (by simp [hx])
      have hh2 : ∀ x ∈ r :: rs, 0 ≤ x.h := fun x hx => hh x (by simp [hx])
      rw [coversWith_cons, ih r hkey2 hh2 hchain2.2 a q, coversWith_cons,
        coversWith_cons cur (r :: rs) a q, coversWith_cons r rs a q]

lemma sortByY_mem (l : List RawRect) (x : RawRect) : x ∈ sortByY l ↔ x ∈ l :=
  (List.perm_insertionSort _ l).mem_iff

lemma mergeVertically_covers (l : List RawRect) (hdim : ∀ r ∈ l, 0 ≤ r.h)
    (hex : ∀ g ∈ groupByKey vertKey l, vChainOk (sortByY g.2) = true)
    (a : String × Option ℚ × Option String) (q : ℚ × ℚ) :
    coversWith (mergeVertically l) a q ↔ coversWith l a q := by
  unfold mergeVertically
  have hflat : coversWith ((groupByKey vertKey l).flatMap fun g =>
      match sortByY g.2 with
      | [] => []
      | a' :: rest => vRunMerge a' rest) a q ↔
      ∃ g ∈ groupByKey vertKey l, coversWith (match sortByY g.2 with
        | [] => []
        | a' :: rest => vRunMerge a' rest) a q := by
    unfold coversWith
    constructor
    · rintro ⟨r, hr, hrest⟩
      obtain ⟨g, hg, hrg⟩ := List.mem_flatMap.mp hr
      exact ⟨g, hg, r, hrg, hrest⟩
    · rintro ⟨g, hg, r, hrg, hrest⟩
      exact ⟨r, List.mem_flatMap.mpr ⟨g, hg, hrg⟩, hrest⟩
  rw [hflat]
  have hgroup : ∀ g ∈ groupByKey vertKey l,
      (coversWith (match sortByY g.2 with
        | [] => []
        | a' :: rest => vRunMerge a' rest) a q ↔ coversWith g.2 a q) := by
    intro g hg
    rcases hsort : sortByY g.2 with _ | ⟨a', rest⟩
    · have hnil : g.2 = [] := by
        have hperm := List.perm_insertionSort (fun a b : RawRect => a.y ≤ b.y) g.2
        rw [show List.insertionSort (fun a b : RawRect => a.y ≤ b.y) g.2 = sortByY g.2
          from rfl, hsort] at hperm
        exact hperm.nil_eq.symm
      rw [hnil]
    · have hsmem : ∀ x, x ∈ a' :: rest ↔ x ∈ g.2 := by
        intro x
        rw [← hsort]
        exact sortByY_mem g.2 x
      have hsub : ∀ x ∈ a' :: rest, x ∈ l := by
        intro x hx
        exact (groupByKey_mem vertKey l x).mp ⟨g, hg, (hsmem x).mp hx⟩
      have hkey : ∀ x ∈ a' :: rest, vertKey x = vertKey a' := by
        intro x hx
        rw [groupByKey_key vertKey l g hg x ((hsmem x).mp hx),
          groupByKey_key vertKey l g hg a' ((hsmem a').mp (by simp))]
      have hh : ∀ x ∈ a' :: rest, 0 ≤ x.h := fun x hx => hdim x (hsub x hx)
      have hchain : vChainOk (a' :: rest) = true := by
        rw [← hsort]
        exact hex g hg
      rw [vRunMerge_covers rest a' hkey hh hchain a q]
      exact coversWith_of_mem_iff hsmem a q
  constructor
  · rintro ⟨g, hg, hcov⟩
    obtain ⟨r, hr, hattr, hin⟩ := (hgroup g hg).mp hcov
    exact ⟨r, (groupByKey_mem vertKey l r).mp ⟨g, hg, hr⟩, hattr, hin⟩
  · rintro ⟨r, hrl, hattr, hin⟩
    obtain ⟨g, hg, hrg⟩ := (groupByKey_mem vertKey l r).mpr hrl
    exact ⟨g, hg, (hgroup g hg).mpr ⟨r, hrg, hattr, hin⟩⟩

lemma mergeVertically_key (l : List RawRect) :
    ∀ x ∈ mergeVertically l, ∃ r ∈ l, vertKey x = vertKey r := by
  intro x hx
  unfold mergeVertically at hx
  obtain ⟨g, hg, hxg⟩ := List.mem_flatMap.mp hx
  rcases hsort : sortByY g.2 with _ | ⟨a', rest⟩
  · rw [hsort] at hxg
    simp at hxg
  · rw [hsort] at hxg
    have hkey : ∀ y ∈ a' :: rest, vertKey y = vertKey a' := by
      intro y hy
      have hys : y ∈ g.2 := by
        rw [← sortByY_mem g.2 y, hsort]
        exact hy
      rw [groupByKey_key vertKey l g hg y hys,
        groupByKey_key vertKey l g hg a' (by rw [← sortByY_mem g.2 a', hsort]; simp)]
    have ha'l : a' ∈ l := by
      refine (groupByKey_mem vertKey l a').mp ⟨g, hg, ?_⟩
      rw [← sortByY_mem g.2 a', hsort]
      simp
    exact ⟨a', ha'l, vRunMerge_key (vertKey a') rest a' hkey x hxg⟩

end Y2K

namespace Y2K

lemma hPairOk_iff {a b : RawRect} : hPairOk a b = true ↔
    (a.x + a.w ≤ b.x ∧ (|round6 (a.x + a.w) - round6 b.x| < 1/10000 ↔ a.x + a.w = b.x)) := by
  simp [hPairOk, decide_eq_decide]

lemma hPairOk_right_congr {a a' b : RawRect} (h : a.x + a.w = a'.x + a'.w) :
    hPairOk a b = hPairOk a' b := by
  unfold hPairOk
  rw [h]

lemma inRect_merge_split_h (cur r : RawRect) (hy : r.y = cur.y) (hh : r.h = cur.h)
    (hadj : r.x = cur.x + cur.w) (hw1 : 0 ≤ cur.w) (hw2 : 0 ≤ r.w) (q : ℚ × ℚ) :
    inRect { cur with w := cur.w + r.w } q ↔ (inRect cur q ∨ inRect r q) := by
  unfold inRect
  simp only
  constructor
  · rintro ⟨h1, h2, h3, h4⟩
    by_cases hxq : q.1 < cur.x + cur.w
    · exact Or.inl ⟨h1, hxq, h3, h4⟩
    · push_neg at hxq
      exact Or.inr ⟨by linarith, by linarith, by linarith, by linarith⟩
  · rintro (⟨h1, h2, h3, h4⟩ | ⟨h1, h2, h3, h4⟩)
    · exact ⟨h1, by linarith, h3, h4⟩
    · exact ⟨by linarith, by linarith, by linarith, by linarith⟩

lemma hRunMerge_key (k : (String × Option ℚ × Option String) × ℚ × ℚ) :
    ∀ (l : List RawRect) (cur : RawRect), (∀ x ∈ cur :: l, horizKey x = k) →
    ∀ x ∈ hRunMerge cur l, horizKey x = k := by
  intro l
  induction l with
  | nil =>
    intro cur hk x hx
    simp only [hRunMerge, List.mem_singleton] at hx
    subst hx
    exact hk x (by simp)
  | cons r rs ih =>
    intro cur hk x hx
    simp only [hRunMerge] at hx
    split_ifs at hx with hclose
    · refine ih { cur with w := cur.w + r.w } ?_ x hx
      intro y hy
      rcases List.mem_cons.mp hy with hy | hy
      · subst hy
        exact hk cur (by simp)
      · exact hk y (by simp [hy])
    · rcases List.mem_cons.mp hx with hx | hx
      · subst hx
        exact hk x (by simp)
      · refine ih r ?_ x hx
        intro y hy
        rcases List.mem_cons.mp hy with hy | hy
        · subst hy
          exact hk y (by simp)
        · exact hk y (by simp [hy])

lemma hRunMerge_covers : ∀ (l : List RawRect) (cur : RawRect),
    (∀ x ∈ cur :: l, horizKey x = horizKey cur) → (∀ x ∈ cur :: l, 0 ≤ x.w) →
    hChainOk (cur :: l) = true →
    ∀ (a : String × Option ℚ × Option String) (q : ℚ × ℚ),
      (coversWith (hRunMerge cur l) a q ↔ coversWith (cur :: l) a q) := by
  intro l
  induction l with
  | nil =>
    intro cur _ _ _ a q
    exact Iff.rfl
  | cons r rs ih =>
    intro cur hkey hw hchain a q
    have hchain2 : (hPairOk cur r && hChainOk (r :: rs)) = true := hchain
    rw [Bool.and_eq_true] at hchain2
    obtain ⟨hdisj, hiff⟩ := hPairOk_iff.mp hchain2.1
    have hkr : horizKey r = horizKey cur := hkey r (by simp)
    have hvis : visualKey r = visualKey cur := congrArg Prod.fst hkr
    have hyeq : r.y = cur.y := congrArg (fun p => p.2.1) hkr
    have hheq : r.h = cur.h := congrArg (fun p => p.2.2) hkr
    simp only [hRunMerge]
    split_ifs with hclose
    · have hadj : cur.x + cur.w = r.x := hiff.mp hclose
      have hright : ({ cur with w := cur.w + r.w } : RawRect).x +
          ({ cur with w := cur.w + r.w } : RawRect).w = r.x + r.w := by
        simp only
        linarith
      have hkey2 : ∀ x ∈ ({ cur with w := cur.w + r.w } : RawRect) :: rs,
          horizKey x = horizKey ({ cur with w := cur.w + r.w } : RawRect) := by
        intro x hx
        have hck : horizKey ({ cur with w := cur.w + r.w } : RawRect) = horizKey cur := rfl
        rcases List.mem_cons.mp hx with hx | hx
        · subst hx; rfl
        · rw [hck]; exact hkey x (by simp [hx])
      have hw2 : ∀ x ∈ ({ cur with w := cur.w + r.w } : RawRect) :: rs, 0 ≤ x.w := by
        intro x hx
        rcases List.mem_cons.mp hx with hx | hx
        · subst hx
          have h1 := hw cur (by simp)
          have h2 := hw r (by simp)
          simp only
          linarith
        · exact hw x (by simp [hx])
      have hchain3 : hChainOk (({ cur with w := cur.w + r.w } : RawRect) :: rs) = true := by
        cases rs with
        | nil => rfl
        | cons r2 rs2 =>
          have e1 : hChainOk (({ cur with w := cur.w + r.w } : RawRect) :: r2 :: rs2) =
              (hPairOk { cur with w := cur.w + r.w } r2 && hChainOk (r2 :: rs2)) := rfl
          have e2 : hChainOk (r :: r2 :: rs2) =
              (hPairOk r r2 && hChainOk (r2 :: rs2)) := rfl
          rw [e1, hPairOk_right_congr hright, ← e2]
          exact hchain2.2
      rw [ih { cur with w := cur.w + r.w } hkey2 hw2 hchain3 a q]
      rw [coversWith_cons, coversWith_cons, coversWith_cons]
      have hsplit := inRect_merge_split_h cur r hyeq hheq hadj.symm
        (hw cur (by simp)) (hw r (by simp)) q
      have hvis2 : visualKey ({ cur with w := cur.w + r.w } : RawRect) = visualKey cur := rfl
      rw [hvis2, hsplit, hvis]
      tauto
    · have hkey2 : ∀ x ∈ r :: rs, horizKey x = horizKey r := by
        intro x hx
        rw [hkr]
        exact hkey x (by simp [hx])
      have hw2 : ∀ x ∈ r :: rs, 0 ≤ x.w := fun x hx => hw x (by simp [hx])
      rw [coversWith_cons, ih r hkey2 hw2 hchain2.2 a q, coversWith_cons,
        coversWith_cons cur (r :: rs) a q, coversWith_cons r rs a q]

lemma sortByX_mem (l : List RawRect) (x : RawRect) : x ∈ sortByX l ↔ x ∈ l :=
  (List.perm_insertionSort _ l).mem_iff

lemma mergeHorizontally_covers (l : List RawRect) (hdim : ∀ r ∈ l, 0 ≤ r.w)
    (hex : ∀ g ∈ groupByKey horizKey l, hChainOk (sortByX g.2) = true)
    (a : String × Option ℚ × Option String) (q : ℚ × ℚ) :
    coversWith (mergeHorizontally l) a q ↔ coversWith l a q := by
  unfold mergeHorizontally
  have hflat : coversWith ((groupByKey horizKey l).flatMap fun g =>
      match sortByX g.2 with
      | [] => []
      | a' :: rest => hRunMerge a' rest) a q ↔
      ∃ g ∈ groupByKey horizKey l, coversWith (match sortByX g.2 with
        | [] => []
        | a' :: rest => hRunMerge a' rest) a q := by
    unfold coversWith
    constructor
    · rintro ⟨r, hr, hrest⟩
      obtain ⟨g, hg, hrg⟩ := List.mem_flatMap.mp hr
      exact ⟨g, hg, r, hrg, hrest⟩
    · rintro ⟨g, hg, r, hrg, hrest⟩
      exact ⟨r, List.mem_flatMap.mpr ⟨g, hg, hrg⟩, hrest⟩
  rw [hflat]
  have hgroup : ∀ g ∈ groupByKey horizKey l,
      (coversWith (match sortByX g.2 with
        | [] => []
        | a' :: rest => hRunMerge a' rest) a q ↔ coversWith g.2 a q) := by
    intro g hg
    rcases hsort : sortByX g.2 with _ | ⟨a', rest⟩
    · have hnil : g.2 = [] := by
        have hperm := List.perm_insertionSort (fun a b : RawRect => a.x ≤ b.x) g.2
        rw [show List.insertionSort (fun a b : RawRect => a.x ≤ b.x) g.2 = sortByX g.2
          from rfl, hsort] at hperm
        exact hperm.nil_eq.symm
      rw [hnil]
    · have hsmem : ∀ x, x ∈ a' :: rest ↔ x ∈ g.2 := by
        intro x
        rw [← hsort]
        exact sortByX_mem g.2 x
      have hsub : ∀ x ∈ a' :: rest, x ∈ l := by
        intro x hx
        exact (groupByKey_mem horizKey l x).mp ⟨g, hg, (hsmem x).mp hx⟩
      have hkey : ∀ x ∈ a' :: rest, horizKey x = horizKey a' := by
        intro x hx
        rw [groupByKey_key horizKey l g hg x ((hsmem x).mp hx),
          groupByKey_key horizKey l g hg a' ((hsmem a').mp (by simp))]
      have hw : ∀ x ∈ a' :: rest, 0 ≤ x.w := fun x hx => hdim x (hsub x hx)
      have hchain : hChainOk (a' :: rest) = true := by
        rw [← hsort]
        exact hex g hg
      rw [hRunMerge_covers rest a' hkey hw hchain a q]
      exact coversWith_of_mem_iff hsmem a q
  constructor
  · rintro ⟨g, hg, hcov⟩
    obtain ⟨r, hr, hattr, hin⟩ := (hgroup g hg).mp hcov
    exact ⟨r, (groupByKey_mem horizKey l r).mp ⟨g, hg, hr⟩, hattr, hin⟩
  · rintro ⟨r, hrl, hattr, hin⟩
    obtain ⟨g, hg, hrg⟩ := (groupByKey_mem horizKey l r).mpr hrl
    exact ⟨g, hg, (hgroup g hg).mpr ⟨r, hrg, hattr, hin⟩⟩

lemma mergeVH_covers (l : List RawRect) (hdim : ∀ r ∈ l, 0 ≤ r.w ∧ 0 ≤ r.h)
    (hv : ∀ g ∈ groupByKey vertKey l, vChainOk (sortByY g.2) = true)
    (hh : ∀ g ∈ groupByKey horizKey (mergeVertically l), hChainOk (sortByX g.2) = true)
    (a : String × Option ℚ × Option String) (q : ℚ × ℚ) :
    coversWith (mergeHorizontally (mergeVertically l)) a q ↔ coversWith l a q := by
  have hwm : ∀ r ∈ mergeVertically l, 0 ≤ r.w := by
    intro x hx
    obtain ⟨r, hr, hkx⟩ := mergeVertically_key l x hx
    have hwx : x.w = r.w := congrArg (fun p => p.2.2) hkx
    rw [hwx]
    exact (hdim r hr).1
  rw [mergeHorizontally_covers (mergeVertically l) hwm hh a q,
    mergeVertically_covers l (fun r hr => (hdim r hr).2) hv a q]

/-- C1 (amended: lossless on inputs whose per-group merge adjacencies are
exact): the two-pass greedy merge uses a `1e-4` tolerance on coordinates
rounded to six decimals, so it can coalesce same-attribute rectangles
whose edges are close but not equal, changing the covered area. Provided
every vertical group of a layer and every horizontal group of its
vertically merged form are chain-exact (disjoint in order, tolerance test
succeeding exactly on touching edges) and all extents are nonnegative,
the merged layer covers exactly the points the unmerged layer covers,
for every visual attribute class. -/
theorem merge_lossless_of_exact (width height squareSize : ℚ) (stops : List Stop)
    (globalBg : String) (sizeStep cosA sinA : ℚ) (l : List RawRect)
    (_hl : l = (buildLayers width height squareSize stops globalBg sizeStep cosA sinA).bgL ∨
      l = (buildLayers width height squareSize stops globalBg sizeStep cosA sinA).solidL ∨
      l = (buildLayers width height squareSize stops globalBg sizeStep cosA sinA).alphaL)
    (hex : mergeExact l) :
    ∀ (a : String × Option ℚ × Option String) (q : ℚ × ℚ),
      coversWith (mergeHorizontally (mergeVertically l)) a q ↔ coversWith l a q :=
  mergeVH_covers l hex.1 hex.2.1 hex.2.2

/-- C1 counterexample: merging can change the covered area. At angle 90
(the app default; direction `(1, 0)`), with `width = 8`, `height = 16`,
`squareSize = 8`, `sizeStep = 8`, background `#ggg` and stops
`{0,"#aaa",true},{1000000,"#bbb",false}`, both cells resolve at axis
percentage 50 with `size = 1 - smoothstep(1/20000)`, leaving a vertical
gap of `8·smoothstep(1/20000) ≈ 6e-8` between the two solid squares; the
rounded `1e-4` tolerance merges them anyway, so the merged output covers
the point `(4, 8)` on the cell boundary with fill `#aaa` although the
unmerged rectangles do not cover it. -/
theorem merge_lossless_counterexample :
    Real.sin ((90 : ℝ) * Real.pi / 180) = 1 ∧
    -Real.cos ((90 : ℝ) * Real.pi / 180) = 0 ∧
    coversWith (mergedRects true (buildLayers 8 16 8
        [⟨0, "#aaa", true⟩, ⟨1000000, "#bbb", false⟩] "#ggg" 8 1 0))
      ("#aaa", none, some "geometricPrecision") (4, 8) ∧
    ¬ coversWith (rawRects (buildLayers 8 16 8
        [⟨0, "#aaa", true⟩, ⟨1000000, "#bbb", false⟩] "#ggg" 8 1 0))
      ("#aaa", none, some "geometricPrecision") (4, 8) := by
  have hrad : (90 : ℝ) * Real.pi / 180 = Real.pi / 2 := by ring
  refine ⟨by rw [hrad, Real.sin_pi_div_two], by rw [hrad, Real.cos_pi_div_two, neg_zero],
    by decide, by decide⟩

/-- Witness for the amended C1 on a clean two-column input whose merge
adjacencies are exact. -/
theorem merge_lossless_witness :
    mergeExact (buildLayers 16 8 8 [⟨0, "#aaa", true⟩, ⟨100, "#bbb", false⟩]
      "#ggg" 8 1 0).solidL ∧
    (coversWith (mergeHorizontally (mergeVertically (buildLayers 16 8 8
        [⟨0, "#aaa", true⟩, ⟨100, "#bbb", false⟩] "#ggg" 8 1 0).solidL))
      ("#aaa", none, some "geometricPrecision") (4, 4) ↔
     coversWith (buildLayers 16 8 8 [⟨0, "#aaa", true⟩, ⟨100, "#bbb", false⟩]
        "#ggg" 8 1 0).solidL ("#aaa", none, some "geometricPrecision") (4, 4)) :=
  ⟨by decide, merge_lossless_of_exact 16 8 8 [⟨0, "#aaa", true⟩, ⟨100, "#bbb", false⟩]
    "#ggg" 8 1 0 _ (Or.inr (Or.inl rfl)) (by decide)
    ("#aaa", none, some "geometricPrecision") (4, 4)⟩

end Y2K
